import Mathlib

/-!
Verification of the workflow engine in `app/engine.py` (Node / Edge / Graph /
WorkflowEngine).  The Python code is shallowly embedded: the state dictionary
threaded through a run is an opaque type parameter `σ` (the engine only copies
it and passes it around; in a pure embedding `dict.copy()` is the identity),
Python dictionaries become insertion-ordered association lists with
replace-in-place update (Python 3.7+ dict semantics), caller-supplied
callables that may raise become functions into `Except String`, and the
`while` loop of `Graph.execute` becomes a fueled step function on an explicit
configuration record (the fuel is `max_iterations - iteration`, so fuel
exhaustion is exactly the `iteration < max_iterations` loop test failing).
`uuid.uuid4()` id generation is modelled by a fresh counter on the engine:
the only property the code relies on is that freshly generated ids are
distinct from all previously issued ones.
-/

namespace LangGraph

/-- Lookup in an insertion-ordered association list (Python `d[k]` / `d.get(k)`). -/
def lookupA {κ α : Type} [DecidableEq κ] : List (κ × α) → κ → Option α
  | [], _ => none
  | (k, v) :: rest, key => if k = key then some v else lookupA rest key

/-- Update in an insertion-ordered association list (Python `d[k] = v`):
replaces in place when the key is present, appends otherwise. -/
def insertA {κ α : Type} [DecidableEq κ] : List (κ × α) → κ → α → List (κ × α)
  | [], k, v => [(k, v)]
  | (k0, v0) :: rest, k, v =>
    if k0 = k then (k, v) :: rest else (k0, v0) :: insertA rest k v

/-- `NodeStatus` enum: possible outcomes of node execution. -/
inductive NodeStatus
  | success
  | error
  | skipped
deriving DecidableEq, Repr

/-- `ExecutionEntry`: record of a single node's execution in a workflow run. -/
structure ExecutionEntry (σ : Type) where
  node_name : String
  status : NodeStatus
  input_state : σ
  output_state : σ
  error_message : Option String
deriving DecidableEq, Repr

/-- `Node`: a named step wrapping a caller-supplied function.  A Python
callable that may raise is embedded as `σ → Except String σ`, the `.error`
case carrying `str(e)`. -/
structure Node (σ : Type) where
  name : String
  func : σ → Except String σ
  node_type : String

/-- `Node.execute`: run the wrapped function; on a raise, return the original
state unchanged together with the error message (the `try/except` wrapper). -/
def Node.execute {σ : Type} (n : Node σ) (state : σ) : σ × Option String :=
  match n.func state with
  | .ok updated => (updated, none)
  | .error e => (state, some e)

/-- `Edge`: a directed connection between two nodes, optionally guarded by a
condition callable (which may itself raise). -/
structure Edge (σ : Type) where
  source : String
  target : String
  condition : Option (σ → Except String Bool)

/-- `Edge.should_execute`: no condition means fire; a condition that raises is
treated as `false`. -/
def Edge.should_execute {σ : Type} (e : Edge σ) (state : σ) : Bool :=
  match e.condition with
  | none => true
  | some cond =>
    match cond state with
    | .ok b => b
    | .error _ => false

/-- `Graph`: nodes keyed by name (insertion order significant) and an
adjacency table of outgoing edges keyed by source name. -/
structure Graph (σ : Type) where
  id : Nat
  name : String
  nodes : List (String × Node σ)
  edges : List (String × List (Edge σ))

/-- `Graph.add_node`: register (or silently replace) a node under `name`, and
make sure an outgoing-edge list exists for it. -/
def Graph.add_node {σ : Type} (g : Graph σ) (name : String)
    (func : σ → Except String σ) (node_type : String) : Graph σ :=
  { g with
    nodes := insertA g.nodes name ⟨name, func, node_type⟩
    edges := if (lookupA g.edges name).isSome then g.edges
             else insertA g.edges name [] }

/-- `Graph.add_edge`: raises `ValueError` (here: `.error`) unless both
endpoints are registered nodes; otherwise appends the edge to the source's
outgoing list. -/
def Graph.add_edge {σ : Type} (g : Graph σ) (source target : String)
    (condition : Option (σ → Except String Bool)) : Except String (Graph σ) :=
  if (lookupA g.nodes source).isNone ∨ (lookupA g.nodes target).isNone then
    .error ("Invalid edge: both nodes must exist (" ++ source ++ " -> " ++ target ++ ")")
  else
    let edges0 := if (lookupA g.edges source).isSome then g.edges
                  else insertA g.edges source []
    let cur := (lookupA edges0 source).getD []
    .ok { g with edges := insertA edges0 source (cur ++ [⟨source, target, condition⟩]) }

/-- `Graph._get_next_nodes`: targets of the outgoing edges of `current_node`
whose condition fires against `state`, in declaration order. -/
def Graph.get_next_nodes {σ : Type} (g : Graph σ) (current_node : String)
    (state : σ) : List String :=
  match lookupA g.edges current_node with
  | none => []
  | some es => (es.filter (fun e => e.should_execute state)).map (fun e => e.target)

/-- All edge targets across the whole graph (the `incoming` set built in
`Graph.execute` when auto-detecting entry nodes). -/
def Graph.allTargets {σ : Type} (g : Graph σ) : List String :=
  ((g.edges.map (fun p => p.2)).flatten).map (fun e => e.target)

/-- Default start set: node names with no incoming edge, in insertion order. -/
def Graph.defaultStart {σ : Type} (g : Graph σ) : List String :=
  (g.nodes.map (fun p => p.1)).filter (fun n => !(g.allTargets.contains n))

/-- The mutable locals of `Graph.execute`'s `while` loop, together with
`self` (the graph), as one configuration record. -/
structure ExecConfig (σ : Type) where
  graph : Graph σ
  queue : List String
  executed : List String
  iteration : Nat
  state : σ
  log : List (ExecutionEntry σ)

/-- One iteration of the `while` body of `Graph.execute`: increment the
counter, pop the queue front, apply the loop guard, skip unregistered names,
otherwise execute the node, append the log entry, mark executed, and extend
the queue with the fired edge targets. -/
def execStep {σ : Type} (c : ExecConfig σ) : ExecConfig σ :=
  match c.queue with
  | [] => c
  | node_name :: rest =>
    let iteration := c.iteration + 1
    if c.executed.contains node_name ∧ c.graph.nodes.length < iteration then
      { c with queue := rest, iteration := iteration }
    else
      match lookupA c.graph.nodes node_name with
      | none => { c with queue := rest, iteration := iteration }
      | some node =>
        let input_state := c.state
        let res := node.execute c.state
        let status := if res.2.isSome then NodeStatus.error else NodeStatus.success
        let entry : ExecutionEntry σ :=
          ⟨node_name, status, input_state, res.1, res.2⟩
        let executed1 := if c.executed.contains node_name then c.executed
                         else node_name :: c.executed
        let next := c.graph.get_next_nodes node_name res.1
        { graph := c.graph
          queue := rest ++ next
          executed := executed1
          iteration := iteration
          state := res.1
          log := c.log ++ [entry] }

/-- The `while queue and iteration < max_iterations` loop: the fuel is
`max_iterations - iteration`, so `fuel = 0` is exactly the cap test failing. -/
def execRun {σ : Type} : Nat → ExecConfig σ → ExecConfig σ
  | 0, c => c
  | fuel + 1, c => if c.queue.isEmpty then c else execRun fuel (execStep c)

/-- Initial configuration of `Graph.execute`: resolved start set as the queue,
empty executed set, counter at zero, a copy of the initial state (identity in
the pure embedding), empty log. -/
def Graph.initConfig {σ : Type} (g : Graph σ) (initial_state : σ)
    (start_nodes : Option (List String)) : ExecConfig σ :=
  { graph := g
    queue := start_nodes.getD g.defaultStart
    executed := []
    iteration := 0
    state := initial_state
    log := [] }

/-- `Graph.execute`: queue-based traversal returning the final state and the
ordered execution log. -/
def Graph.execute {σ : Type} (g : Graph σ) (initial_state : σ)
    (start_nodes : Option (List String)) (max_iterations : Nat) :
    σ × List (ExecutionEntry σ) :=
  let c := execRun max_iterations (g.initConfig initial_state start_nodes)
  (c.state, c.log)

/-- `WorkflowEngine`: registry of graphs and of completed runs.  `uuid4` id
generation is modelled by the fresh counter `next_id`; ids are opaque lookup
keys, so naturals stand in for the uuid strings. -/
structure WorkflowEngine (σ : Type) where
  graphs : List (Nat × Graph σ)
  run_history : List (Nat × (σ × List (ExecutionEntry σ)))
  next_id : Nat

/-- `WorkflowEngine.create_graph`: allocate a graph with a fresh id and
register it. -/
def WorkflowEngine.create_graph {σ : Type} (e : WorkflowEngine σ)
    (name : String) : Graph σ × WorkflowEngine σ :=
  let g : Graph σ := ⟨e.next_id, name, [], []⟩
  (g, { e with graphs := insertA e.graphs g.id g, next_id := e.next_id + 1 })

/-- `WorkflowEngine.get_graph`: registry lookup, no side effects. -/
def WorkflowEngine.get_graph {σ : Type} (e : WorkflowEngine σ)
    (graph_id : Nat) : Option (Graph σ) :=
  lookupA e.graphs graph_id

/-- `WorkflowEngine.run_graph`: resolve the graph (ValueError if absent),
execute it, store the result under a fresh run id, return run id, final
state, log, and the updated engine. -/
def WorkflowEngine.run_graph {σ : Type} (e : WorkflowEngine σ) (graph_id : Nat)
    (initial_state : σ) (max_iterations : Nat) :
    Except String (Nat × σ × List (ExecutionEntry σ) × WorkflowEngine σ) :=
  match lookupA e.graphs graph_id with
  | none => .error "Graph not found in engine"
  | some graph =>
    let res := graph.execute initial_state none max_iterations
    let run_id := e.next_id
    .ok (run_id, res.1, res.2,
      { e with run_history := insertA e.run_history run_id (res.1, res.2)
               next_id := e.next_id + 1 })

/-- `WorkflowEngine.get_run_state`: run-registry lookup; absence is `none`,
not a fault. -/
def WorkflowEngine.get_run_state {σ : Type} (e : WorkflowEngine σ)
    (run_id : Nat) : Option (σ × List (ExecutionEntry σ)) :=
  lookupA e.run_history run_id

/-- Well-formedness of the engine's fresh-id counter: every issued run id is
below `next_id` (what `uuid4` uniqueness provides in the original). -/
def EngineWF {σ : Type} (e : WorkflowEngine σ) : Prop :=
  ∀ k : Nat, (lookupA e.run_history k).isSome → k < e.next_id

/-! Concrete instances used by witnesses and counterexamples.  The state type
is a concrete string-to-number dictionary so that runs can be evaluated. -/

/-- Concrete state dictionary for witness runs. -/
abbrev StateMap : Type := List (String × Nat)

/-- Unwrap `add_edge` in example builders (all example edges are valid). -/
def addEdgeU {σ : Type} (g : Graph σ) (source target : String)
    (condition : Option (σ → Except String Bool)) : Graph σ :=
  (g.add_edge source target condition).toOption.getD g

/-- Linear chain A→B→C whose middle node always raises (the failure-isolation
scenario of the spec). -/
def Gfault : Graph StateMap :=
  let g : Graph StateMap := ⟨0, "fault-chain", [], []⟩
  let g := g.add_node "A" (fun s => .ok (insertA s "a" 1)) "task"
  let g := g.add_node "B" (fun _ => .error "boom") "task"
  let g := g.add_node "C" (fun s => .ok (insertA s "c" 3)) "task"
  let g := addEdgeU g "A" "B" none
  addEdgeU g "B" "C" none

/-- Two-node pure cycle A→B→A: every node has an incoming edge. -/
def Gcyc : Graph StateMap :=
  let g : Graph StateMap := ⟨0, "cycle", [], []⟩
  let g := g.add_node "A" (fun s => .ok s) "task"
  let g := g.add_node "B" (fun s => .ok s) "task"
  let g := addEdgeU g "A" "B" none
  addEdgeU g "B" "A" none

/-- Single node with an always-true guarded self-loop (the loop-boundedness
scenario of the spec). -/
def Gloop : Graph StateMap :=
  let g : Graph StateMap := ⟨0, "self-loop", [], []⟩
  let g := g.add_node "A" (fun s => .ok (insertA s "n" ((lookupA s "n").getD 0 + 1))) "task"
  addEdgeU g "A" "A" (some (fun _ => .ok true))

/-- One registered node "A"; running it with explicit start set ["B"] dequeues
an unregistered name. -/
def Gsingle : Graph StateMap :=
  let g : Graph StateMap := ⟨0, "single", [], []⟩
  g.add_node "A" (fun s => .ok (insertA s "a" 1)) "task"

/-! Association-list (Python dict) lemmas. -/

theorem lookupA_insertA_self {κ α : Type} [DecidableEq κ] (l : List (κ × α))
    (k : κ) (v : α) : lookupA (insertA l k v) k = some v := by
  induction l with
  | nil => simp [insertA, lookupA]
  | cons hd tl ih =>
    obtain ⟨k0, v0⟩ := hd
    by_cases h : k0 = k
    · simp [insertA, h, lookupA]
    · simp [insertA, h, lookupA, ih]

theorem lookupA_insertA_ne {κ α : Type} [DecidableEq κ] (l : List (κ × α))
    (k key : κ) (v : α) (h : k ≠ key) :
    lookupA (insertA l k v) key = lookupA l key := by
  induction l with
  | nil => simp [insertA, lookupA, h]
  | cons hd tl ih =>
    obtain ⟨k0, v0⟩ := hd
    by_cases h0 : k0 = k
    · subst h0; simp [insertA, lookupA, h]
    · simp [insertA, h0, lookupA, ih]

/-- C10: `add_node` with an already-registered name silently replaces the
stored node (new function and type), leaves that name's existing outgoing
edge list intact, never fails, and afterwards the name maps to the new node
and an outgoing-edge list (existing one, else fresh empty) exists for it;
other names are untouched. -/
theorem c10_add_node_replace {σ : Type} (g : Graph σ) (name : String)
    (func : σ → Except String σ) (node_type : String) :
    lookupA (g.add_node name func node_type).nodes name = some ⟨name, func, node_type⟩
    ∧ lookupA (g.add_node name func node_type).edges name
        = some ((lookupA g.edges name).getD [])
    ∧ (∀ m : String, m ≠ name →
        lookupA (g.add_node name func node_type).nodes m = lookupA g.nodes m
        ∧ lookupA (g.add_node name func node_type).edges m = lookupA g.edges m) := by
  refine ⟨?_, ?_, ?_⟩
  · simp [Graph.add_node, lookupA_insertA_self]
  · cases h : lookupA g.edges name with
    | none => simp [Graph.add_node, h, lookupA_insertA_self]
    | some es => simp [Graph.add_node, h]
  · intro m hm
    have hnm : name ≠ m := Ne.symm hm
    constructor
    · simp [Graph.add_node, lookupA_insertA_ne _ _ _ _ hnm]
    · cases h : lookupA g.edges name with
      | none => simp [Graph.add_node, h, lookupA_insertA_ne _ _ _ _ hnm]
      | some es => simp [Graph.add_node, h]

/-- Witness for C10 at a concrete graph: replacing node "A" of `Gsingle`
keeps its (empty) outgoing-edge list and registers the new node. -/
theorem c10_add_node_replace_witness :
    lookupA ((Gsingle.add_node "A" (fun s => .ok s) "tool").nodes) "A"
        = some ⟨"A", (fun s => .ok s), "tool"⟩
    ∧ lookupA ((Gsingle.add_node "A" (fun s => .ok s) "tool").edges) "A" = some []
    ∧ lookupA ((Gsingle.add_node "A" (fun s => .ok s) "tool").edges) "X" = none := by
  obtain ⟨h1, h2, h3⟩ := c10_add_node_replace Gsingle "A" (fun s => .ok s) "tool"
  refine ⟨h1, ?_, ?_⟩
  · rw [h2]; rfl
  · rw [(h3 "X" (by decide)).2]; rfl

/-- C6: `add_edge` with a missing endpoint fails with the invalid-edge error
(producing no updated graph, so the edge table is left as it was); with both
endpoints present it appends the edge to the source's outgoing list, leaving
the node table and all other adjacency entries unchanged. -/
theorem c6_add_edge_validation {σ : Type} (g : Graph σ) (source target : String)
    (condition : Option (σ → Except String Bool)) :
    (((lookupA g.nodes source).isNone ∨ (lookupA g.nodes target).isNone) →
      g.add_edge source target condition
        = .error ("Invalid edge: both nodes must exist (" ++ source ++ " -> " ++ target ++ ")"))
    ∧ (¬((lookupA g.nodes source).isNone ∨ (lookupA g.nodes target).isNone) →
      ∃ g2 : Graph σ, g.add_edge source target condition = .ok g2
        ∧ g2.nodes = g.nodes
        ∧ lookupA g2.edges source
            = some ((lookupA g.edges source).getD [] ++ [⟨source, target, condition⟩])
        ∧ ∀ m : String, m ≠ source → lookupA g2.edges m = lookupA g.edges m) := by
  constructor
  · intro h
    simp only [Graph.add_edge, if_pos h]
  · intro h
    cases hes : lookupA g.edges source with
    | none =>
      have hok : g.add_edge source target condition
          = .ok { g with edges :=
              (insertA (insertA g.edges source []) source ([] ++ [⟨source, target, condition⟩])) } := by
        simp only [Graph.add_edge, if_neg h, hes, Option.isSome_none,
          Bool.false_eq_true, if_false, lookupA_insertA_self, Option.getD_some]
      refine ⟨_, hok, rfl, ?_, ?_⟩
      · simp [hes, lookupA_insertA_self]
      · intro m hm
        have hsm : source ≠ m := Ne.symm hm
        simp [hes, lookupA_insertA_ne _ _ _ _ hsm]
    | some es =>
      have hok : g.add_edge source target condition
          = .ok { g with edges :=
              (insertA g.edges source (es ++ [⟨source, target, condition⟩])) } := by
        simp only [Graph.add_edge, if_neg h, hes, Option.isSome_some,
          if_true, Option.getD_some]
      refine ⟨_, hok, rfl, ?_, ?_⟩
      · simp [hes, lookupA_insertA_self]
      · intro m hm
        have hsm : source ≠ m := Ne.symm hm
        simp [hes, lookupA_insertA_ne _ _ _ _ hsm]

/-- Witness for C6 at a concrete graph: an edge to the unregistered "X" is
rejected, a self-edge on the registered "A" is appended. -/
theorem c6_add_edge_validation_witness :
    Gsingle.add_edge "A" "X" (none : Option (StateMap → Except String Bool))
        = .error "Invalid edge: both nodes must exist (A -> X)"
    ∧ ∃ g2 : Graph StateMap, Gsingle.add_edge "A" "A" none = .ok g2
        ∧ lookupA g2.edges "A" = some [⟨"A", "A", none⟩] := by
  constructor
  · exact (c6_add_edge_validation Gsingle "A" "X" none).1 (Or.inr (by rfl))
  · obtain ⟨g2, hok, hnodes, hsrc, hother⟩ :=
      (c6_add_edge_validation Gsingle "A" "A" none).2 (by decide)
    exact ⟨g2, hok, by rw [hsrc]; rfl⟩

/-! Loop-step lemmas. -/

theorem execStep_graph {σ : Type} (c : ExecConfig σ) : (execStep c).graph = c.graph := by
  unfold execStep
  split
  · rfl
  · dsimp only
    split
    · rfl
    · split
      · rfl
      · rfl

theorem execRun_graph {σ : Type} (fuel : Nat) (c : ExecConfig σ) :
    (execRun fuel c).graph = c.graph := by
  induction fuel generalizing c with
  | zero => rfl
  | succ f ih =>
    by_cases hq : c.queue.isEmpty
    · simp [execRun, hq]
    · simp only [execRun, hq, Bool.false_eq_true, if_false]
      rw [ih (execStep c), execStep_graph]

theorem execStep_log_length {σ : Type} (c : ExecConfig σ) :
    (execStep c).log.length ≤ c.log.length + 1 := by
  unfold execStep
  split
  · exact Nat.le_succ _
  · dsimp only
    split
    · exact Nat.le_succ _
    · split
      · exact Nat.le_succ _
      · simp

theorem execRun_log_length {σ : Type} (fuel : Nat) (c : ExecConfig σ) :
    (execRun fuel c).log.length ≤ c.log.length + fuel := by
  induction fuel generalizing c with
  | zero => exact Nat.le_refl _
  | succ f ih =>
    by_cases hq : c.queue.isEmpty
    · simp [execRun, hq]
    · simp only [execRun, hq, Bool.false_eq_true, if_false]
      calc (execRun f (execStep c)).log.length
          ≤ (execStep c).log.length + f := ih (execStep c)
        _ ≤ (c.log.length + 1) + f := Nat.add_le_add_right (execStep_log_length c) f
        _ = c.log.length + (f + 1) := by omega

/-- C1 (amended: restricted to dequeues of registered step names): a dequeued
registered name produces no log entry exactly when it is already executed and
the incremented counter strictly exceeds the node count; in that case the
entire configuration is unchanged except for popping the queue and the
counter (silent drop), and otherwise an entry for that very name is appended
to the log (executed and logged normally). -/
theorem c1_loop_guard_policy {σ : Type} (c : ExecConfig σ) (n : String)
    (rest : List String) (hq : c.queue = n :: rest)
    (hreg : (lookupA c.graph.nodes n).isSome = true) :
    ((execStep c).log = c.log ↔
      (c.executed.contains n = true ∧ c.graph.nodes.length < c.iteration + 1))
    ∧ ((c.executed.contains n = true ∧ c.graph.nodes.length < c.iteration + 1) →
        execStep c = { c with queue := rest, iteration := c.iteration + 1 })
    ∧ (¬(c.executed.contains n = true ∧ c.graph.nodes.length < c.iteration + 1) →
        ∃ entry : ExecutionEntry σ, (execStep c).log = c.log ++ [entry]
          ∧ entry.node_name = n) := by
  obtain ⟨node, hnode⟩ := Option.isSome_iff_exists.mp hreg
  by_cases hguard : c.executed.contains n = true ∧ c.graph.nodes.length < c.iteration + 1
  · have hstep : execStep c = { c with queue := rest, iteration := c.iteration + 1 } := by
      simp only [execStep, hq]
      rw [if_pos hguard]
    refine ⟨?_, fun _ => hstep, fun hc => absurd hguard hc⟩
    rw [hstep]
    simpa using hguard
  · have hstep : (execStep c).log = c.log ++
        [⟨n, if (node.execute c.state).2.isSome then NodeStatus.error else NodeStatus.success,
          c.state, (node.execute c.state).1, (node.execute c.state).2⟩] := by
      simp only [execStep, hq]
      rw [if_neg hguard]
      simp only [hnode]
    refine ⟨?_, fun hg => absurd hg hguard, fun _ => ⟨_, hstep, rfl⟩⟩
    rw [hstep]
    constructor
    · intro habs
      have hlen := congrArg List.length habs
      simp at hlen
    · intro hg
      exact absurd hg hguard

/-- Witness for C1's amended theorem: dequeuing the registered, not yet
executed "A" of `Gsingle` appends a log entry named "A". -/
theorem c1_loop_guard_policy_witness :
    ∃ entry : ExecutionEntry StateMap,
      (execStep (Gsingle.initConfig [] (some ["A"]))).log
          = (Gsingle.initConfig [] (some ["A"])).log ++ [entry]
      ∧ entry.node_name = "A" :=
  (c1_loop_guard_policy (Gsingle.initConfig [] (some ["A"])) "A" [] rfl rfl).2.2
    (by decide)

/-- Counterexample to C1 as stated: with explicit start set ["B"] on the
one-node graph `Gsingle`, the dequeued name "B" is not in the (empty)
executed set and the incremented counter 1 does not exceed the node count 1,
yet the entry is silently dropped: nothing is executed or logged. -/
theorem c1_unregistered_dequeue_counterexample :
    (Gsingle.initConfig [] (some ["B"])).executed.contains "B" = false
    ∧ (Gsingle.initConfig [] (some ["B"])).iteration + 1 ≤ Gsingle.nodes.length
    ∧ (execStep (Gsingle.initConfig [] (some ["B"]))).log = []
    ∧ Gsingle.execute [] (some ["B"]) 10 = ([], []) := by
  exact ⟨rfl, by decide, rfl, by decide⟩

/-- C8: running a graph never changes its structure: the graph component of
the traversal configuration (node map and edge table included) after any run
is exactly the input graph; the initial state is threaded in as a copy, the
caller's binding being unaffected in the pure embedding. -/
theorem c8_graph_immutable_under_run {σ : Type} (g : Graph σ) (initial_state : σ)
    (start_nodes : Option (List String)) (max_iterations : Nat) :
    (execRun max_iterations (g.initConfig initial_state start_nodes)).graph = g :=
  execRun_graph max_iterations (g.initConfig initial_state start_nodes)

/-- C5: traversal always returns (the loop is fuelled by exactly
`max_iterations - iteration`), the log never has more entries than the
iteration cap, and hitting the cap is a normal return carrying the state and
log accumulated so far: concretely, the always-true self-loop `Gloop`
terminates, and cutting the fault chain off at cap 2 returns the first two
entries of the uncapped run together with the state they produced. -/
theorem c5_iteration_cap_bound :
    (∀ (σ : Type) (g : Graph σ) (s : σ) (ss : Option (List String)) (cap : Nat),
      (g.execute s ss cap).2.length ≤ cap)
    ∧ (Gloop.execute [] (some ["A"]) 100).2.length = 1
    ∧ (Gfault.execute [] none 2).2 = (Gfault.execute [] none 10).2.take 2
    ∧ (Gfault.execute [] none 2).1 = [("a", 1)] := by
  refine ⟨?_, by decide, by decide, by decide⟩
  intro σ g s ss cap
  have h := execRun_log_length cap (g.initConfig s ss)
  simpa [Graph.execute, Graph.initConfig] using h

theorem execRun_queue_nil {σ : Type} (fuel : Nat) (c : ExecConfig σ)
    (h : c.queue = []) : execRun fuel c = c := by
  cases fuel with
  | zero => rfl
  | succ f => simp [execRun, h]

theorem mem_allTargets {σ : Type} (g : Graph σ) (n : String) :
    n ∈ g.allTargets ↔ ∃ p ∈ g.edges, ∃ e ∈ p.2, Edge.target e = n := by
  constructor
  · intro h
    obtain ⟨e, he, ht⟩ := List.mem_map.mp h
    obtain ⟨es, hes, he2⟩ := List.mem_flatten.mp he
    obtain ⟨p, hp, hpe⟩ := List.mem_map.mp hes
    exact ⟨p, hp, e, hpe ▸ he2, ht⟩
  · rintro ⟨p, hp, e, he, ht⟩
    exact List.mem_map.mpr ⟨e, List.mem_flatten.mpr ⟨p.2, List.mem_map.mpr ⟨p, hp, rfl⟩, he⟩, ht⟩

/-- C2: with no explicit start set, the resolved start set is exactly the
step names that are the target of no edge, taken in node-insertion order
(a filtering of the key sequence); the run with no explicit start set is the
run from that set; and when it is empty (pure cycle) the run returns the
initial state and an empty log. -/
theorem c2_default_start_resolution {σ : Type} (g : Graph σ) (s : σ) (cap : Nat) :
    (∀ n : String, n ∈ g.defaultStart ↔
      (n ∈ g.nodes.map (fun p => p.1) ∧ ¬∃ p ∈ g.edges, ∃ e ∈ p.2, Edge.target e = n))
    ∧ g.defaultStart.Sublist (g.nodes.map (fun p => p.1))
    ∧ g.execute s none cap = g.execute s (some g.defaultStart) cap
    ∧ (g.defaultStart = [] → g.execute s none cap = (s, [])) := by
  refine ⟨?_, List.filter_sublist _, rfl, ?_⟩
  · intro n
    unfold Graph.defaultStart
    rw [List.mem_filter]
    constructor
    · rintro ⟨hk, hc⟩
      have hna : n ∉ g.allTargets := by simpa using hc
      exact ⟨hk, fun hex => hna ((mem_allTargets g n).mpr hex)⟩
    · rintro ⟨hk, hno⟩
      have hna : n ∉ g.allTargets := fun hmem => hno ((mem_allTargets g n).mp hmem)
      exact ⟨hk, by simpa using hna⟩
  · intro hds
    have h := execRun_queue_nil cap (g.initConfig s none)
      (by simp [Graph.initConfig, hds])
    simp only [Graph.execute]
    rw [h]
    rfl

/-- Witness for C2 at the pure cycle `Gcyc`: the resolved start set is empty
and the run returns the initial state with an empty log. -/
theorem c2_default_start_resolution_witness :
    Gcyc.defaultStart = [] ∧ Gcyc.execute [("x", 7)] none 10 = ([("x", 7)], []) :=
  ⟨by decide, (c2_default_start_resolution Gcyc [("x", 7)] 10).2.2.2 (by decide)⟩

/-- C3: a node whose function raises returns the original state unchanged
together with the message, never propagating the fault; in the chain A→B→C
of `Gfault` with B always raising, the log has exactly 3 entries, B's entry
is an `error` entry whose pre-state equals its post-state, and C still
executes with B's unchanged output as its input. -/
theorem c3_fault_isolation :
    (∀ (σ : Type) (n : Node σ) (st : σ) (msg : String),
      n.func st = .error msg → n.execute st = (st, some msg))
    ∧ (Gfault.execute [] none 10).2.length = 3
    ∧ (Gfault.execute [] none 10).2[1]?
        = some ⟨"B", NodeStatus.error, [("a", 1)], [("a", 1)], some "boom"⟩
    ∧ (Gfault.execute [] none 10).2[2]?
        = some ⟨"C", NodeStatus.success, [("a", 1)], [("a", 1), ("c", 3)], none⟩ := by
  refine ⟨?_, by decide, by decide, by decide⟩
  intro σ n st msg h
  simp [Node.execute, h]

/-- Witness for C3: a concrete always-raising node returns its input state
untouched together with the message. -/
theorem c3_fault_isolation_witness :
    Node.execute ⟨"B", fun _ => .error "boom", "task"⟩ ([] : StateMap)
      = ([], some "boom") :=
  c3_fault_isolation.1 StateMap ⟨"B", fun _ => .error "boom", "task"⟩ [] "boom" rfl

/-- C4: an edge with no condition always fires; an edge whose condition
raises does not fire; the next nodes after a step are exactly the targets of
its outgoing edges whose condition fires against the one post-step state, in
declaration order; and the executing loop step appends them to the back of
the queue, the state having become the node's output. -/
theorem c4_route_guard_policy :
    (∀ (σ : Type) (e : Edge σ) (st : σ),
      e.condition = none → e.should_execute st = true)
    ∧ (∀ (σ : Type) (e : Edge σ) (cond : σ → Except String Bool) (st : σ) (msg : String),
        e.condition = some cond → cond st = .error msg → e.should_execute st = false)
    ∧ (∀ (σ : Type) (g : Graph σ) (cur : String) (st : σ) (t : String),
        t ∈ g.get_next_nodes cur st ↔
          ∃ e ∈ (lookupA g.edges cur).getD [], e.should_execute st = true ∧ e.target = t)
    ∧ (∀ (σ : Type) (c : ExecConfig σ) (n : String) (rest : List String) (node : Node σ),
        c.queue = n :: rest →
        lookupA c.graph.nodes n = some node →
        ¬(c.executed.contains n = true ∧ c.graph.nodes.length < c.iteration + 1) →
        (execStep c).queue = rest ++ c.graph.get_next_nodes n (node.execute c.state).1
          ∧ (execStep c).state = (node.execute c.state).1) := by
  refine ⟨?_, ?_, ?_, ?_⟩
  · intro σ e st h
    simp [Edge.should_execute, h]
  · intro σ e cond st msg h1 h2
    simp [Edge.should_execute, h1, h2]
  · intro σ g cur st t
    cases hes : lookupA g.edges cur with
    | none => simp [Graph.get_next_nodes, hes]
    | some es =>
      simp [Graph.get_next_nodes, hes, List.mem_map, List.mem_filter]
      constructor
      · intro ⟨e, ⟨he, hfire⟩, ht⟩
        exact ⟨e, he, hfire, ht⟩
      · intro ⟨e, he, hfire, ht⟩
        exact ⟨e, ⟨he, hfire⟩, ht⟩
  · intro σ c n rest node hq hnode hguard
    constructor
    · simp only [execStep, hq]
      rw [if_neg hguard]
      simp only [hnode]
    · simp only [execStep, hq]
      rw [if_neg hguard]
      simp only [hnode]

/-- Witness for C4: a concrete edge whose condition raises does not fire. -/
theorem c4_route_guard_policy_witness :
    Edge.should_execute ⟨"A", "B", some (fun _ => .error "bad guard")⟩ ([] : StateMap)
      = false :=
  c4_route_guard_policy.2.1 StateMap ⟨"A", "B", some (fun _ => .error "bad guard")⟩
    (fun _ => .error "bad guard") [] "bad guard" rfl rfl

theorem run_graph_ok_inv {σ : Type} (e : WorkflowEngine σ) (gid : Nat) (s : σ)
    (cap : Nat) (rid : Nat) (fs : σ) (log : List (ExecutionEntry σ))
    (e2 : WorkflowEngine σ)
    (h : e.run_graph gid s cap = .ok (rid, fs, log, e2)) :
    ∃ g : Graph σ, lookupA e.graphs gid = some g
      ∧ rid = e.next_id
      ∧ fs = (g.execute s none cap).1
      ∧ log = (g.execute s none cap).2
      ∧ e2 = { e with
          run_history := insertA e.run_history e.next_id
            ((g.execute s none cap).1, (g.execute s none cap).2)
          next_id := e.next_id + 1 } := by
  cases hg : lookupA e.graphs gid with
  | none => simp [WorkflowEngine.run_graph, hg] at h
  | some g =>
    refine ⟨g, rfl, ?_⟩
    simp only [WorkflowEngine.run_graph, hg, Except.ok.injEq, Prod.mk.injEq] at h
    obtain ⟨h1, h2, h3, h4⟩ := h
    exact ⟨h1.symm, h2.symm, h3.symm, h4.symm⟩

theorem execStep_log_append {σ : Type} (c : ExecConfig σ) :
    ∃ tail : List (ExecutionEntry σ), (execStep c).log = c.log ++ tail := by
  unfold execStep
  split
  · exact ⟨[], by simp⟩
  · dsimp only
    split
    · exact ⟨[], by simp⟩
    · split
      · exact ⟨[], by simp⟩
      · exact ⟨_, rfl⟩

theorem execRun_log_append {σ : Type} (fuel : Nat) (c : ExecConfig σ) :
    ∃ tail : List (ExecutionEntry σ), (execRun fuel c).log = c.log ++ tail := by
  induction fuel generalizing c with
  | zero => exact ⟨[], by simp [execRun]⟩
  | succ f ih =>
    by_cases hq : c.queue.isEmpty
    · exact ⟨[], by simp [execRun, hq]⟩
    · obtain ⟨t1, h1⟩ := execStep_log_append c
      obtain ⟨t2, h2⟩ := ih (execStep c)
      refine ⟨t1 ++ t2, ?_⟩
      simp only [execRun, hq, Bool.false_eq_true, if_false]
      rw [h2, h1, List.append_assoc]

/-- C7: under the freshness invariant on issued ids, a successful `run_graph`
returns a run id not previously present in the run registry; `get_run_state`
on that id returns exactly the (final state, log) pair `run_graph` returned;
an id unknown to the updated registry's predecessor (and distinct from the
fresh one) still looks up to `none`, not a fault; and the freshness
invariant is preserved. -/
theorem c7_run_registry_roundtrip {σ : Type} (e : WorkflowEngine σ) (gid : Nat)
    (s : σ) (cap : Nat) (rid : Nat) (fs : σ) (log : List (ExecutionEntry σ))
    (e2 : WorkflowEngine σ) (hwf : EngineWF e)
    (h : e.run_graph gid s cap = .ok (rid, fs, log, e2)) :
    lookupA e.run_history rid = none
    ∧ e2.get_run_state rid = some (fs, log)
    ∧ (∀ k : Nat, k ≠ rid → lookupA e.run_history k = none →
        e2.get_run_state k = none)
    ∧ EngineWF e2 := by
  obtain ⟨g, hg, hrid, hfs, hlog, he2⟩ := run_graph_ok_inv e gid s cap rid fs log e2 h
  subst hrid hfs hlog he2
  refine ⟨?_, ?_, ?_, ?_⟩
  · cases hh : lookupA e.run_history e.next_id with
    | none => rfl
    | some v => exact absurd (hwf e.next_id (by simp [hh])) (Nat.lt_irrefl _)
  · simp [WorkflowEngine.get_run_state, lookupA_insertA_self]
  · intro k hk hnone
    simp only [WorkflowEngine.get_run_state]
    rw [lookupA_insertA_ne _ _ _ _ (Ne.symm hk)]
    exact hnone
  · intro k hk
    dsimp only at hk ⊢
    by_cases hkr : k = e.next_id
    · subst hkr
      exact Nat.lt_succ_of_le (Nat.le_refl _)
    · rw [lookupA_insertA_ne _ _ _ _ (fun hx => hkr hx.symm)] at hk
      exact Nat.lt_succ_of_lt (hwf k hk)

/-- Witness for C7: a concrete engine holding `Gfault` under id 5 with an
empty run registry; running it issues run id 6, retrievable, while id 0
stays unknown. -/
theorem c7_run_registry_roundtrip_witness :
    WorkflowEngine.get_run_state
        { graphs := [(5, Gfault)]
          run_history := insertA [] 6 ((Gfault.execute [] none 10).1, (Gfault.execute [] none 10).2)
          next_id := 7 } 6
      = some ((Gfault.execute [] none 10).1, (Gfault.execute [] none 10).2)
    ∧ WorkflowEngine.get_run_state
        { graphs := [(5, Gfault)]
          run_history := insertA [] 6 ((Gfault.execute [] none 10).1, (Gfault.execute [] none 10).2)
          next_id := 7 } 0
      = none := by
  have hwf : EngineWF (⟨[(5, Gfault)], [], 6⟩ : WorkflowEngine StateMap) := by
    intro k hk
    simp [lookupA] at hk
  have h := c7_run_registry_roundtrip (⟨[(5, Gfault)], [], 6⟩ : WorkflowEngine StateMap)
    5 [] 10 6 (Gfault.execute [] none 10).1 (Gfault.execute [] none 10).2
    ⟨[(5, Gfault)], insertA [] 6 ((Gfault.execute [] none 10).1, (Gfault.execute [] none 10).2), 7⟩
    hwf rfl
  exact ⟨h.2.1, h.2.2.1 0 (by decide) rfl⟩

/-- C9: traversal is deterministic and the log is in dequeue order.  Running
the same graph twice in sequence through the engine (all capabilities being
pure functions in this embedding) yields the same final state, the same log,
and the same ordered executed-name sequence; any log entry produced by a
loop step is for the name at the front of the FIFO queue; and the log only
ever grows by appending, so its order is the order steps actually ran. -/
theorem c9_determinism_fifo :
    (∀ (σ : Type) (e : WorkflowEngine σ) (gid : Nat) (s : σ) (cap : Nat)
        (rid1 rid2 : Nat) (fs1 fs2 : σ) (log1 log2 : List (ExecutionEntry σ))
        (e1 e2 : WorkflowEngine σ),
        e.run_graph gid s cap = .ok (rid1, fs1, log1, e1) →
        e1.run_graph gid s cap = .ok (rid2, fs2, log2, e2) →
        fs2 = fs1 ∧ log2 = log1
          ∧ log2.map (fun en => en.node_name) = log1.map (fun en => en.node_name))
    ∧ (∀ (σ : Type) (c : ExecConfig σ) (n : String) (rest : List String),
        c.queue = n :: rest →
        (execStep c).log = c.log ∨
          ∃ entry : ExecutionEntry σ, (execStep c).log = c.log ++ [entry]
            ∧ entry.node_name = n)
    ∧ (∀ (σ : Type) (fuel : Nat) (c : ExecConfig σ),
        ∃ tail : List (ExecutionEntry σ), (execRun fuel c).log = c.log ++ tail) := by
  refine ⟨?_, ?_, fun σ fuel c => execRun_log_append fuel c⟩
  · intro σ e gid s cap rid1 rid2 fs1 fs2 log1 log2 e1 e2 h1 h2
    obtain ⟨g1, hg1, _, hfs1, hlog1, he1⟩ := run_graph_ok_inv e gid s cap rid1 fs1 log1 e1 h1
    obtain ⟨g2, hg2, _, hfs2, hlog2, _⟩ := run_graph_ok_inv e1 gid s cap rid2 fs2 log2 e2 h2
    have hgs : e1.graphs = e.graphs := by rw [he1]
    rw [hgs, hg1] at hg2
    have hgg : g2 = g1 := by injection hg2 with hx; exact hx.symm
    subst hgg
    exact ⟨by rw [hfs1, hfs2], by rw [hlog1, hlog2], by rw [hlog1, hlog2]⟩
  · intro σ c n rest hq
    by_cases hguard : c.executed.contains n = true ∧ c.graph.nodes.length < c.iteration + 1
    · left
      simp only [execStep, hq]
      rw [if_pos hguard]
    · cases hnode : lookupA c.graph.nodes n with
      | none =>
        left
        simp only [execStep, hq]
        rw [if_neg hguard]
        simp only [hnode]
      | some node =>
        right
        have hstep : (execStep c).log = c.log ++
            [⟨n, if (node.execute c.state).2.isSome then NodeStatus.error else NodeStatus.success,
              c.state, (node.execute c.state).1, (node.execute c.state).2⟩] := by
          simp only [execStep, hq]
          rw [if_neg hguard]
          simp only [hnode]
        exact ⟨_, hstep, rfl⟩

/-- Witness for C9: the loop step on a concrete configuration logs the front
of the queue (or nothing). -/
theorem c9_determinism_fifo_witness :
    (execStep (Gsingle.initConfig [] (some ["A"]))).log
        = (Gsingle.initConfig [] (some ["A"])).log
    ∨ ∃ entry : ExecutionEntry StateMap,
        (execStep (Gsingle.initConfig [] (some ["A"]))).log
            = (Gsingle.initConfig [] (some ["A"])).log ++ [entry]
        ∧ entry.node_name = "A" :=
  c9_determinism_fifo.2.1 StateMap (Gsingle.initConfig [] (some ["A"])) "A" [] rfl

end LangGraph
